import Mathlib

/-!
Verification of the file-watching / backup-cleanup subsystem of the
iar-vsc-build extension.

The development shallowly embeds:
* the regular-expression fragment of JavaScript used by
  `src/utils/utils.ts` (character classes, concatenation, alternation,
  Kleene star), executed with Brzozowski derivatives;
* `BackupUtils.isBackupFile`, the backup-name patterns and the cleanup
  diff of `BackupUtils.doWithBackupCheck`;
* `RegexUtils.escape`;
* `ListUtils.mergeUnique` (JavaScript `Map` insertion-order semantics);
* the `subscribe` / `onFileModified` handlers set up by
  `setupFileWatchers` in `src/extension/main.ts`, with the entity
  parser, path comparison and the locale-dependent sort comparator
  abstracted as parameters.
-/

set_option maxHeartbeats 1000000

namespace IarBuild

/-- Regular expressions over `Char` with arbitrary character classes,
covering the fragment of JavaScript regex syntax appearing in
`src/utils/utils.ts`. -/
inductive Regex : Type where
  | fail : Regex
  | eps : Regex
  | cls : (Char → Bool) → Regex
  | cat : Regex → Regex → Regex
  | alt : Regex → Regex → Regex
  | star : Regex → Regex

/-- Does the regex accept the empty string? -/
def nullable : Regex → Bool
  | .fail => false
  | .eps => true
  | .cls _ => false
  | .cat r1 r2 => nullable r1 && nullable r2
  | .alt r1 r2 => nullable r1 || nullable r2
  | .star _ => true

/-- Brzozowski derivative of a regex with respect to one character. -/
def deriv : Regex → Char → Regex
  | .fail, _ => .fail
  | .eps, _ => .fail
  | .cls p, c => if p c then .eps else .fail
  | .cat r1 r2, c =>
      if nullable r1 then .alt (.cat (deriv r1 c) r2) (deriv r2 c)
      else .cat (deriv r1 c) r2
  | .alt r1 r2, c => .alt (deriv r1 c) (deriv r2 c)
  | .star r, c => .cat (deriv r c) (.star r)

/-- Executable full-string matcher. -/
def matchList (r : Regex) (s : List Char) : Bool :=
  nullable (s.foldl deriv r)

/-- Declarative matching relation for `Regex`. -/
inductive RMatch : Regex → List Char → Prop where
  | eps : RMatch .eps []
  | cls {p : Char → Bool} {c : Char} : p c = true → RMatch (.cls p) [c]
  | cat {r1 r2 : Regex} {s1 s2 : List Char} :
      RMatch r1 s1 → RMatch r2 s2 → RMatch (.cat r1 r2) (s1 ++ s2)
  | altL {r1 r2 : Regex} {s : List Char} : RMatch r1 s → RMatch (.alt r1 r2) s
  | altR {r1 r2 : Regex} {s : List Char} : RMatch r2 s → RMatch (.alt r1 r2) s
  | starNil {r : Regex} : RMatch (.star r) []
  | starCat {r : Regex} {s1 s2 : List Char} :
      RMatch r s1 → RMatch (.star r) s2 → RMatch (.star r) (s1 ++ s2)

theorem rmatch_nil_of_nullable {r : Regex} (h : nullable r = true) : RMatch r [] := by
  induction r with
  | fail => simp [nullable] at h
  | eps => exact RMatch.eps
  | cls p => simp [nullable] at h
  | cat r1 r2 ih1 ih2 =>
      simp only [nullable, Bool.and_eq_true] at h
      exact RMatch.cat (ih1 h.1) (ih2 h.2)
  | alt r1 r2 ih1 ih2 =>
      simp only [nullable, Bool.or_eq_true] at h
      rcases h with h | h
      · exact RMatch.altL (ih1 h)
      · exact RMatch.altR (ih2 h)
  | star r ih => exact RMatch.starNil

theorem nullable_of_rmatch {r : Regex} {s : List Char}
    (h : RMatch r s) : s = [] → nullable r = true := by
  induction h with
  | eps => intro _; rfl
  | cls _ => intro h; cases h
  | cat h1 h2 ih1 ih2 =>
      intro h
      rcases List.append_eq_nil.mp h with ⟨e1, e2⟩
      simp [nullable, ih1 e1, ih2 e2]
  | altL h ih => intro h0; simp [nullable, ih h0]
  | altR h ih => intro h0; simp [nullable, ih h0]
  | starNil => intro _; rfl
  | starCat h1 h2 ih1 ih2 => intro _; rfl

theorem rmatch_of_deriv {r : Regex} {c : Char} {s : List Char}
    (h : RMatch (deriv r c) s) : RMatch r (c :: s) := by
  induction r generalizing s with
  | fail => simp only [deriv] at h; cases h
  | eps => simp only [deriv] at h; cases h
  | cls p =>
      simp only [deriv] at h
      by_cases hp : p c
      · simp only [hp, if_true] at h
        cases h
        exact RMatch.cls hp
      · simp only [hp, if_false] at h
        cases h
  | cat r1 r2 ih1 ih2 =>
      simp only [deriv] at h
      by_cases hn : nullable r1
      · simp only [hn, if_true] at h
        cases h with
        | altL h1 =>
            cases h1 with
            | cat ha hb =>
                rw [show c :: (_ ++ _) = (c :: _) ++ _ from rfl]
                exact RMatch.cat (ih1 ha) hb
        | altR h2 =>
            have := RMatch.cat (rmatch_nil_of_nullable hn) (ih2 h2)
            simpa using this
      · simp only [hn, if_false] at h
        cases h with
        | cat ha hb =>
            rw [show c :: (_ ++ _) = (c :: _) ++ _ from rfl]
            exact RMatch.cat (ih1 ha) hb
  | alt r1 r2 ih1 ih2 =>
      simp only [deriv] at h
      cases h with
      | altL h1 => exact RMatch.altL (ih1 h1)
      | altR h2 => exact RMatch.altR (ih2 h2)
  | star r ih =>
      simp only [deriv] at h
      cases h with
      | cat ha hb =>
          rw [show c :: (_ ++ _) = (c :: _) ++ _ from rfl]
          exact RMatch.starCat (ih ha) hb

theorem deriv_of_rmatch {r : Regex} {s : List Char} (h : RMatch r s) :
    ∀ (c : Char) (s' : List Char), s = c :: s' → RMatch (deriv r c) s' := by
  induction h with
  | eps => intro c s' h; cases h
  | @cls p c0 hp =>
      intro c s' h
      cases h
      simp only [deriv, hp, if_true]
      exact RMatch.eps
  | @cat r1 r2 s1 s2 h1 h2 ih1 ih2 =>
      intro c s' hs
      cases s1 with
      | nil =>
          simp only [List.nil_append] at hs
          have hn : nullable r1 = true := nullable_of_rmatch h1 rfl
          simp only [deriv, hn, if_true]
          exact RMatch.altR (ih2 c s' hs)
      | cons a s1' =>
          simp only [List.cons_append, List.cons.injEq] at hs
          rcases hs with ⟨rfl, rfl⟩
          by_cases hn : nullable r1
          · simp only [deriv, hn, if_true]
            exact RMatch.altL (RMatch.cat (ih1 _ _ rfl) h2)
          · simp only [deriv, hn, if_false]
            exact RMatch.cat (ih1 _ _ rfl) h2
  | altL h1 ih =>
      intro c s' hs
      simp only [deriv]
      exact RMatch.altL (ih c s' hs)
  | altR h2 ih =>
      intro c s' hs
      simp only [deriv]
      exact RMatch.altR (ih c s' hs)
  | starNil => intro c s' h; cases h
  | @starCat r s1 s2 h1 h2 ih1 ih2 =>
      intro c s' hs
      cases s1 with
      | nil =>
          simp only [List.nil_append] at hs
          exact ih2 c s' hs
      | cons a s1' =>
          simp only [List.cons_append, List.cons.injEq] at hs
          rcases hs with ⟨rfl, rfl⟩
          simp only [deriv]
          exact RMatch.cat (ih1 _ _ rfl) h2

/-- The executable matcher agrees with the declarative relation. -/
theorem matchList_iff {r : Regex} {s : List Char} :
    matchList r s = true ↔ RMatch r s := by
  induction s generalizing r with
  | nil =>
      constructor
      · exact fun h => rmatch_nil_of_nullable h
      · exact fun h => nullable_of_rmatch h rfl
  | cons c s ih =>
      constructor
      · intro h
        exact rmatch_of_deriv (ih.mp h)
      · intro h
        exact ih.mpr (deriv_of_rmatch h c s rfl)

/-- Single-character literal. -/
def chr (c : Char) : Regex := .cls (fun d => d == c)

/-- Literal word: the concatenation of the characters of `u`. -/
def lits : List Char → Regex
  | [] => .eps
  | c :: cs => .cat (chr c) (lits cs)

/-- Class accepting any character (used to model an unanchored search). -/
def anyChar : Regex := .cls (fun _ => true)

def anyStar : Regex := .star anyChar

/-- Model of JavaScript `RegExp.test` (and the truthiness of
`String.match`) for a pattern without anchors: an unanchored search for
an occurrence of `r` anywhere in `s`. -/
def searchTest (r : Regex) (s : List Char) : Bool :=
  matchList (.cat anyStar (.cat r anyStar)) s

theorem rmatch_lits {u s : List Char} : RMatch (lits u) s ↔ s = u := by
  induction u generalizing s with
  | nil =>
      constructor
      · intro h; cases h; rfl
      · intro h; subst h; exact RMatch.eps
  | cons c cs ih =>
      constructor
      · intro h
        cases h with
        | cat h1 h2 =>
            cases h1 with
            | cls hp =>
                rename_i d
                have hd : d = c := by simpa [chr] using hp
                subst hd
                rw [ih.mp h2]
                rfl
      · intro h
        subst h
        have h1 : RMatch (chr c) [c] := RMatch.cls (by simp [chr])
        have h2 : RMatch (lits cs) cs := ih.mpr rfl
        exact RMatch.cat h1 h2

theorem rmatch_anyStar (s : List Char) : RMatch anyStar s := by
  induction s with
  | nil => exact RMatch.starNil
  | cons c cs ih =>
      have h1 : RMatch anyChar [c] := RMatch.cls rfl
      exact RMatch.starCat h1 ih

/-- Searching for a literal word succeeds exactly on strings that contain
that word as a contiguous substring. -/
theorem searchTest_lits {u t : List Char} :
    searchTest (lits u) t = true ↔ ∃ pre post, t = pre ++ u ++ post := by
  unfold searchTest
  rw [matchList_iff]
  constructor
  · intro h
    cases h with
    | @cat _ _ pre rest ha hbc =>
        cases hbc with
        | @cat _ _ mid post hb hc =>
            refine ⟨pre, post, ?_⟩
            simp [rmatch_lits.mp hb]
  · rintro ⟨pre, post, rfl⟩
    have h := RMatch.cat (rmatch_anyStar pre)
      (RMatch.cat ((rmatch_lits (u := u) (s := u)).mpr rfl) (rmatch_anyStar post))
    simpa using h

/-! JavaScript character classes, as defined by ECMA-262. -/

/-- The class matched by `\s` in a JavaScript regex. -/
def jsWhitespace (c : Char) : Bool :=
  c == ' ' || c == '\t' || c == '\n' || c == '\x0b' || c == '\x0c' || c == '\r' ||
  c == '\u00A0' || c == '\u1680' ||
  (decide ('\u2000' ≤ c) && decide (c ≤ '\u200A')) ||
  c == '\u2028' || c == '\u2029' || c == '\u202F' || c == '\u205F' ||
  c == '\u3000' || c == '\uFEFF'

/-- The class matched by `\d` in a JavaScript regex. -/
def jsDigit (c : Char) : Bool :=
  decide ('0' ≤ c) && decide (c ≤ '9')

/-- The class matched by `.` in a JavaScript regex without the `s` flag:
any character except a line terminator. -/
def jsDot (c : Char) : Bool :=
  !(c == '\n' || c == '\r' || c == '\u2028' || c == '\u2029')

/-- One or more repetitions, `r+`. -/
def plus (r : Regex) : Regex := .cat r (.star r)

/-- Optional occurrence, `r?`. -/
def opt (r : Regex) : Regex := .alt r .eps

def wsPlus : Regex := plus (.cls jsWhitespace)

def wsStar : Regex := .star (.cls jsWhitespace)

def digitPlus : Regex := plus (.cls jsDigit)

def dotStar : Regex := .star (.cls jsDot)

/-- Literal regex for the characters of a string. -/
def strLits (s : String) : Regex := lits s.toList

/-! Model of the Node `Path.basename` (posix flavour): drop any trailing
separators, then keep everything after the last separator. -/

def stripTrailingSlashes (cs : List Char) : List Char :=
  (cs.reverse.dropWhile (fun c => c == '/')).reverse

def afterLastSlash (cs : List Char) : List Char :=
  (cs.reverse.takeWhile (fun c => !(c == '/'))).reverse

def basename (p : String) : String :=
  ⟨afterLastSlash (stripTrailingSlashes p.toList)⟩

/-- Model of the Node two-argument `Path.basename(p, ext)`: additionally
strip `ext` when it is a proper suffix of the basename. -/
def basenameExt (p ext : String) : String :=
  let b := (basename p).toList
  let e := ext.toList
  if e.isSuffixOf b && !(b == e) then ⟨b.take (b.length - e.length)⟩ else ⟨b⟩

namespace BackupUtils

/-- The anchored English-locale pattern of `BackupUtils.isBackupFile`:
`^Backup\s+(\(\d+\)\s+)?of.*\.ewp$`. Anchors are modelled by requiring a
full match. -/
def listingRegexEng : Regex :=
  .cat (strLits "Backup")
    (.cat wsPlus
      (.cat (opt (.cat (chr '(') (.cat digitPlus (.cat (chr ')') wsPlus))))
        (.cat (strLits "of") (.cat dotStar (strLits ".ewp")))))

/-- The anchored Japanese-locale pattern of `BackupUtils.isBackupFile`:
`^.*\s+のバックアップ(\s+\(\d+\))?\.ewp$`. -/
def listingRegexJpn : Regex :=
  .cat dotStar
    (.cat wsPlus
      (.cat (strLits "のバックアップ")
        (.cat (opt (.cat wsPlus (.cat (chr '(') (.cat digitPlus (chr ')')))))
          (strLits ".ewp"))))

/-- `BackupUtils.isBackupFile` from `src/utils/utils.ts`: tests the two
anchored backup-name patterns against the basename of the path. -/
def isBackupFile (project : String) : Bool :=
  matchList listingRegexEng (basename project).toList ||
  matchList listingRegexJpn (basename project).toList

/-- The guard pattern ``Backup\s+(\(\d+\))?\s*of NAME\.ew`` built by
`doWithBackupCheck`. The interpolated `${projectNameRegex}` is
`RegexUtils.escape` applied to the project name, which denotes the name
literally (`lexPattern_escapeChars` below). -/
def guardRegexEng (name : List Char) : Regex :=
  .cat (strLits "Backup")
    (.cat wsPlus
      (.cat (opt (.cat (chr '(') (.cat digitPlus (chr ')'))))
        (.cat wsStar
          (.cat (strLits "of ") (.cat (lits name) (strLits ".ew"))))))

/-- The guard pattern ``NAME\s+のバックアップ(\s+\(\d+\))?\.ew`` built by
`doWithBackupCheck`. -/
def guardRegexJpn (name : List Char) : Regex :=
  .cat (lits name)
    (.cat wsPlus
      (.cat (strLits "のバックアップ")
        (.cat (opt (.cat wsPlus (.cat (chr '(') (.cat digitPlus (chr ')')))))
          (strLits ".ew"))))

/-- `file.match(backupRegexEng) || file.match(backupRegexJpn)` as a
boolean, for the unanchored guard patterns of the project `name`. -/
def guardMatches (name : List Char) (file : String) : Bool :=
  searchTest (guardRegexEng name) file.toList ||
  searchTest (guardRegexJpn name) file.toList

/-- `Path.basename(project, ".ewp")`, the project name interpolated into
the guard patterns. -/
def projectName (project : String) : List Char :=
  (basenameExt project ".ewp").toList

/-- The `filter` applied to both `readdir` snapshots in
`doWithBackupCheck`. -/
def backupSnapshot (project : String) (listing : List String) : List String :=
  listing.filter (fun file => guardMatches (projectName project) file)

/-- The files the cleanup continuation of `doWithBackupCheck` passes to
`FsPromises.rm`: nothing when the two snapshots have the same length,
otherwise the after-snapshot entries absent from the before-snapshot. -/
def newBackupFiles (project : String) (before after : List String) : List String :=
  let originalBackupFiles := backupSnapshot project before
  let backupFilesAfterExit := backupSnapshot project after
  if originalBackupFiles.length != backupFilesAfterExit.length then
    backupFilesAfterExit.filter (fun f => !originalBackupFiles.contains f)
  else []

/-- Observable outcome of one run of `doWithBackupCheck`: the value the
returned promise settles with, and the backup files the detached cleanup
actually removed. -/
structure GuardRun (ε τ : Type) where
  result : Except ε τ
  removed : List String

/-- Model of `BackupUtils.doWithBackupCheck`. `before` is the pre-task
`readdir` listing; `taskResult` is the value with which the promise of the task settles;
`afterListing` is the post-task `readdir` (which may fail);
`rmSucceeds` tells which `FsPromises.rm` calls succeed. The cleanup runs
in a detached `finally` continuation whose own promise is discarded, so
the function returns `taskResult` itself, and `Promise.allSettled`
swallows individual deletion failures. -/
def doWithBackupCheck {ε τ : Type} (project : String) (before : List String)
    (taskResult : Except ε τ) (afterListing : Except ε (List String))
    (rmSucceeds : String → Bool) : GuardRun ε τ :=
  { result := taskResult
    removed :=
      match afterListing with
      | .error _ => []
      | .ok after => (newBackupFiles project before after).filter rmSucceeds }

end BackupUtils

namespace RegexUtils

/-- The character class of `RegexUtils.escape`:
`[.*+?^${}()|[\]\\]`. This is exactly the set of characters with
syntactic meaning in a JavaScript regex pattern. -/
def regexMeta (c : Char) : Bool :=
  c == '.' || c == '*' || c == '+' || c == '?' || c == '^' || c == '$' ||
  c == '\x7b' || c == '\x7d' || c == '(' || c == ')' || c == '|' ||
  c == '[' || c == ']' || c == '\\'

def escapeChars : List Char → List Char
  | [] => []
  | c :: cs => (if regexMeta c then ['\\', c] else [c]) ++ escapeChars cs

/-- `RegexUtils.escape` from `src/utils/utils.ts`:
`str.replace(/[.*+?^${}()|[\]\\]/g, "\\$&")`. -/
def escape (str : String) : String := ⟨escapeChars str.toList⟩

end RegexUtils

/-- A lexed unit of a JavaScript regex pattern: either a literal
character or an unescaped character with syntactic (meta) meaning. -/
inductive PatTok : Type where
  | lit : Char → PatTok
  | sym : Char → PatTok
  deriving DecidableEq

/-- Lexer for the fragment of JavaScript regex pattern syntax that
`RegexUtils.escape` can produce: a backslash followed by a syntax
character denotes that character literally; an unescaped syntax
character keeps its meta meaning; anything else denotes itself. Escape
sequences outside this fragment (such as `\d`) are not modelled and
yield `none`. -/
def lexPattern : List Char → Option (List PatTok)
  | [] => some []
  | c :: rest =>
    if c == '\\' then
      match rest with
      | [] => none
      | d :: rest2 =>
          if RegexUtils.regexMeta d then
            (lexPattern rest2).map (fun ts => .lit d :: ts)
          else none
    else
      (lexPattern rest).map
        (fun ts => (if RegexUtils.regexMeta c then .sym c else .lit c) :: ts)

namespace ListUtils

/-- One `result.set(getKey(item), item)` step on a JavaScript `Map`
represented as an association list in key-insertion order: an existing
key keeps its position and gets the new value, a new key is appended. -/
def mapSet {T : Type} (k : String) (v : T) : List (String × T) → List (String × T)
  | [] => [(k, v)]
  | (k0, v0) :: rest =>
      if k0 = k then (k0, v) :: rest else (k0, v0) :: mapSet k v rest

/-- Insert every item of `items`, left to right, into the map `m`
(the inner `list.forEach` of `mergeUnique`). -/
def insertAll {T : Type} (getKey : T → String) (m : List (String × T)) :
    List T → List (String × T)
  | [] => m
  | x :: xs => insertAll getKey (mapSet (getKey x) x m) xs

/-- `ListUtils.mergeUnique` from `src/utils/utils.ts`: fold all lists
into a `Map` keyed by `getKey` and return `Array.from(result.values())`
(the values in key-insertion order). -/
def mergeUnique {T : Type} (getKey : T → String) (lists : List (List T)) : List T :=
  (lists.foldl (fun m list => insertAll getKey m list) []).map Prod.snd

/-- First-occurrence deduplication of a list of keys: keeps each key
once, at the position of its first occurrence. -/
def dedupFirst : List String → List String
  | [] => []
  | k :: rest => k :: (dedupFirst rest).filter (fun y => y != k)

/-- The last element of `l` whose key is `k`, if any. -/
def lastWithKey {T : Type} (getKey : T → String) (k : String) : List T → Option T
  | [] => none
  | x :: xs =>
      match lastWithKey getKey k xs with
      | some v => some v
      | none => if getKey x = k then some x else none

/-- First value stored under key `k` in an association list. -/
def lookupA {T : Type} (k : String) : List (String × T) → Option T
  | [] => none
  | (k0, v0) :: rest => if k0 = k then some v0 else lookupA k rest

end ListUtils

/-! Models of the two `subscribe` and two `onFileModified` handlers
registered by `setupFileWatchers` in `src/extension/main.ts`. The
entity type, the parser (`new EwwFile` / `new EwpFile`), the structural
equality test (`EwWorkspace.equal` / `Project.equal`), the path
comparison (`OsUtils.pathsEqual`) and the locale-dependent sort
comparator (`a.name.localeCompare(b.name)`) are parameters. -/

/-- Stable insertion of `x` into `acc` with respect to a strict
comparator: `x` is placed before the first element it compares
strictly below. -/
def insertBy {α : Type} (lt : α → α → Bool) (x : α) : List α → List α
  | [] => [x]
  | y :: ys => if lt x y then x :: y :: ys else y :: insertBy lt x ys

/-- Model of `Array.prototype.sort(comparator)`: a stable sort producing
a permutation of the input ordered by the comparator. -/
def jsSort {α : Type} (lt : α → α → Bool) (l : List α) : List α :=
  l.foldl (fun acc x => insertBy lt x acc) []

/-- The `forEach` parse loop shared by both `subscribe` handlers: each
file is parsed in a `try`; successes are pushed onto the entity list,
failures push a logged-and-surfaced warning message instead. Returns
(entities, warnings) in file order. -/
def parseAll {E : Type} (kind : String) (parse : String → Except String E) :
    List String → List E × List String
  | [] => ([], [])
  | f :: fs =>
      let rest := parseAll kind parse fs
      match parse f with
      | .ok e => (e :: rest.1, rest.2)
      | .error m =>
          (rest.1, ("Could not parse " ++ kind ++ " file " ++ f ++ ": " ++ m) :: rest.2)

/-- Observable outcome of one `subscribe` delivery: the list passed to
`set(...)` (or `none` when `set` is not called) and the warnings
reported for parse failures. -/
structure SubscribeOutcome (E : Type) where
  setList : Option (List E)
  warnings : List String

/-- The `ewwWatcher.subscribe` handler (main.ts, workspaces): parse
every delivered file, sort by name, and call `set(...)`
unconditionally. -/
def ewwSubscribeStep {E : Type} (parse : String → Except String E)
    (lt : E → E → Bool) (files : List String) : SubscribeOutcome E :=
  let p := parseAll "workspace" parse files
  { setList := some (jsSort lt p.1), warnings := p.2 }

/-- The sorted project list computed by the `ewpWatcher.subscribe`
handler before the serialized comparison. -/
def ewpComputedList {E : Type} (isIgnored : String → Bool)
    (parse : String → Except String E) (lt : E → E → Bool)
    (files : List String) : List E :=
  jsSort lt (parseAll "project" parse (files.filter (fun f => !isIgnored f))).1

/-- The warnings emitted by the `ewpWatcher.subscribe` handler. -/
def ewpWarnings {E : Type} (isIgnored : String → Bool)
    (parse : String → Except String E) (files : List String) : List String :=
  (parseAll "project" parse (files.filter (fun f => !isIgnored f))).2

/-- The `ewpWatcher.subscribe` handler (main.ts, projects): drop ignored
files, parse the rest, sort, and replace the fallback-project list only
when its serialization (`JSON.stringify`) differs from the current
one. -/
def ewpSubscribeStep {E : Type} (isIgnored : String → Bool)
    (parse : String → Except String E) (lt : E → E → Bool)
    (serialize : List E → String) (files : List String) (current : List E) :
    SubscribeOutcome E :=
  let projects := ewpComputedList isIgnored parse lt files
  { setList :=
      if serialize projects != serialize current then some projects else none
    warnings := ewpWarnings isIgnored parse files }

/-- Observable outcome of one `onFileModified` delivery: the list passed
to `set(...)` when a replacement happens, plus whether the dependent
reload (`reloadWorkspace` / `reloadProject`) was triggered. -/
structure ModifiedOutcome (E : Type) where
  setList : Option (List E)
  reloaded : Bool
  deriving DecidableEq

/-- The `ewwWatcher.onFileModified` handler. `reparse` models
`new EwwFile(modifiedFile)`, which is *not* wrapped in a `try`: a parse
failure escapes the handler, modelled by the `Except.error` result. -/
def ewwOnFileModified {E : Type} [DecidableEq E]
    (pathsEqual : String → String → Bool) (pathOf : E → String)
    (structEq : E → E → Bool) (entities : List E) (selected : Option E)
    (modifiedFile : String) (reparse : Except String E) :
    Except String (ModifiedOutcome E) :=
  match entities.find? (fun e => pathsEqual (pathOf e) modifiedFile) with
  | none => .ok { setList := none, reloaded := false }
  | some old =>
      match reparse with
      | .error err => .error err
      | .ok reloaded =>
          if structEq old reloaded then
            .ok { setList := none, reloaded := decide (selected = some old) }
          else
            .ok { setList :=
                    some (entities.map (fun e => if e = old then reloaded else e))
                  reloaded := false }

/-- The `ewpWatcher.onFileModified` handler. When a tracked project
matches, `reloadProject(oldProject)` is awaited first, then the file is
re-parsed (`new EwpFile`, again not wrapped in a `try`). -/
def ewpOnFileModified {E : Type} [DecidableEq E]
    (pathsEqual : String → String → Bool) (pathOf : E → String)
    (structEq : E → E → Bool) (entities : List E)
    (modifiedFile : String) (reparse : Except String E) :
    Except String (ModifiedOutcome E) :=
  match entities.find? (fun e => pathsEqual (pathOf e) modifiedFile) with
  | none => .ok { setList := none, reloaded := false }
  | some old =>
      match reparse with
      | .error err => .error err
      | .ok reloaded =>
          if structEq old reloaded then
            .ok { setList := none, reloaded := true }
          else
            .ok { setList :=
                    some (entities.map (fun e => if e = old then reloaded else e))
                  reloaded := true }

/-! Lemmas about the sort model. -/

theorem insertBy_perm {α : Type} (lt : α → α → Bool) (x : α) (l : List α) :
    (insertBy lt x l).Perm (x :: l) := by
  induction l with
  | nil => exact List.Perm.refl _
  | cons y ys ih =>
      simp only [insertBy]
      split
      · exact List.Perm.refl _
      · exact List.Perm.trans (List.Perm.cons y ih) (List.Perm.swap x y ys)

theorem foldl_insertBy_perm {α : Type} (lt : α → α → Bool) (l acc : List α) :
    (l.foldl (fun acc x => insertBy lt x acc) acc).Perm (acc ++ l) := by
  induction l generalizing acc with
  | nil => simp
  | cons x xs ih =>
      simp only [List.foldl_cons]
      refine List.Perm.trans (ih (insertBy lt x acc)) ?_
      refine List.Perm.trans (List.Perm.append_right xs (insertBy_perm lt x acc)) ?_
      exact List.perm_middle.symm

theorem jsSort_perm {α : Type} (lt : α → α → Bool) (l : List α) :
    (jsSort lt l).Perm l := by
  simpa [jsSort] using foldl_insertBy_perm lt l []

theorem mem_jsSort {α : Type} {lt : α → α → Bool} {l : List α} {x : α} :
    x ∈ jsSort lt l ↔ x ∈ l :=
  (jsSort_perm lt l).mem_iff

/-! Lemmas about the shared parse loop. -/

/-- The successfully parsed entity, if any. -/
def okPart {E : Type} (x : Except String E) : Option E :=
  match x with
  | .ok e => some e
  | .error _ => none

/-- The warning emitted for `file` when parsing fails. -/
def warnPart {E : Type} (kind file : String) (x : Except String E) : Option String :=
  match x with
  | .ok _ => none
  | .error m => some ("Could not parse " ++ kind ++ " file " ++ file ++ ": " ++ m)

theorem parseAll_fst {E : Type} (kind : String) (parse : String → Except String E)
    (files : List String) :
    (parseAll kind parse files).1 = files.filterMap (fun f => okPart (parse f)) := by
  induction files with
  | nil => rfl
  | cons f fs ih =>
      simp only [parseAll, List.filterMap_cons]
      cases h : parse f <;> simp [okPart, h, ih]

theorem parseAll_snd {E : Type} (kind : String) (parse : String → Except String E)
    (files : List String) :
    (parseAll kind parse files).2 =
      files.filterMap (fun f => warnPart kind f (parse f)) := by
  induction files with
  | nil => rfl
  | cons f fs ih =>
      simp only [parseAll, List.filterMap_cons]
      cases h : parse f <;> simp [warnPart, h, ih]

/-! Lemmas about `find?` and in-place replacement, for the
`onFileModified` handlers. -/

theorem find?_pre_cons {α : Type} (p : α → Bool) (pre post : List α) (old : α)
    (hpre : ∀ e ∈ pre, p e = false) (hold : p old = true) :
    (pre ++ old :: post).find? p = some old := by
  induction pre with
  | nil => simp [List.find?_cons_of_pos, hold]
  | cons a pre ih =>
      have ha : p a = false := hpre a (by simp)
      simp only [List.cons_append]
      rw [List.find?_cons_of_neg _ (by simp [ha])]
      exact ih (fun e he => hpre e (by simp [he]))

theorem map_replace_id {E : Type} [DecidableEq E] (old newE : E) (l : List E)
    (h : old ∉ l) :
    l.map (fun e => if e = old then newE else e) = l := by
  induction l with
  | nil => rfl
  | cons a l ih =>
      have ha : a ≠ old := fun hc => h (hc ▸ List.mem_cons_self a l)
      simp only [List.map_cons, if_neg ha]
      rw [ih (fun hc => h (List.mem_cons_of_mem a hc))]

theorem map_replace_middle {E : Type} [DecidableEq E] (old newE : E)
    (pre post : List E) (h1 : old ∉ pre) (h2 : old ∉ post) :
    (pre ++ old :: post).map (fun e => if e = old then newE else e) =
      pre ++ newE :: post := by
  rw [List.map_append, List.map_cons, if_pos rfl,
    map_replace_id old newE pre h1, map_replace_id old newE post h2]

/-! Lemmas about the pattern lexer and `RegexUtils.escape`. -/

/-- The characters denoted by a token list consisting only of literal
tokens; `none` as soon as a meta token occurs. -/
def litChars : List PatTok → Option (List Char)
  | [] => some []
  | .lit c :: ts => (litChars ts).map (fun cs => c :: cs)
  | .sym _ :: _ => none

theorem litChars_map_lit (cs : List Char) :
    litChars (cs.map PatTok.lit) = some cs := by
  induction cs with
  | nil => rfl
  | cons c cs ih => simp [litChars, ih]

theorem lexPattern_cons_plain (c : Char) (rest : List Char)
    (hc : (c == '\\') = false) :
    lexPattern (c :: rest) =
      (lexPattern rest).map
        (fun ts => (if RegexUtils.regexMeta c then PatTok.sym c else PatTok.lit c) :: ts) := by
  rw [lexPattern.eq_def]
  simp [hc]

/-! Lemmas about the `Map` model behind `ListUtils.mergeUnique`. -/

namespace ListUtils

/-- The keys of the map, in insertion order. -/
def keysOf {T : Type} (m : List (String × T)) : List String := m.map Prod.fst

/-- Every stored pair has the key assigned by `getKey`. -/
def WFMap {T : Type} (getKey : T → String) (m : List (String × T)) : Prop :=
  ∀ p ∈ m, p.1 = getKey p.2

theorem keys_mapSet_mem {T : Type} {k : String} {v : T} {m : List (String × T)}
    (h : k ∈ keysOf m) : keysOf (mapSet k v m) = keysOf m := by
  induction m with
  | nil => simp [keysOf] at h
  | cons q rest ih =>
      obtain ⟨k0, v0⟩ := q
      by_cases hk : k0 = k
      · simp [mapSet, hk, keysOf]
      · have h' : k ∈ keysOf rest := by
          simp only [keysOf, List.map_cons, List.mem_cons] at h
          rcases h with h | h
          · exact absurd h.symm hk
          · exact h
        simp only [mapSet, if_neg hk, keysOf, List.map_cons, List.cons.injEq, true_and]
        exact ih h'

theorem keys_mapSet_notMem {T : Type} {k : String} {v : T} {m : List (String × T)}
    (h : k ∉ keysOf m) : keysOf (mapSet k v m) = keysOf m ++ [k] := by
  induction m with
  | nil => simp [mapSet, keysOf]
  | cons q rest ih =>
      obtain ⟨k0, v0⟩ := q
      have hk : k0 ≠ k := by
        intro hc
        exact h (by simp [keysOf, hc])
      have h' : k ∉ keysOf rest := by
        intro hc
        exact h (by simp [keysOf]; right; simpa [keysOf] using hc)
      simp only [mapSet, if_neg hk, keysOf, List.map_cons, List.cons_append,
        List.cons.injEq, true_and]
      exact ih h'

theorem nodup_keys_mapSet {T : Type} {k : String} {v : T} {m : List (String × T)}
    (h : (keysOf m).Nodup) : (keysOf (mapSet k v m)).Nodup := by
  by_cases hk : k ∈ keysOf m
  · rw [keys_mapSet_mem hk]; exact h
  · rw [keys_mapSet_notMem hk]
    simp [List.nodup_append, h, hk]

theorem wfMap_mapSet {T : Type} (getKey : T → String) {m : List (String × T)}
    (hm : WFMap getKey m) (v : T) : WFMap getKey (mapSet (getKey v) v m) := by
  induction m with
  | nil =>
      intro p hp
      simp only [mapSet, List.mem_singleton] at hp
      subst hp
      rfl
  | cons q rest ih =>
      obtain ⟨k0, v0⟩ := q
      have hm0 : WFMap getKey rest := fun q hq => hm q (List.mem_cons_of_mem _ hq)
      by_cases hk : k0 = getKey v
      · intro p hp
        simp only [mapSet, if_pos hk] at hp
        rcases List.mem_cons.mp hp with h | h
        · subst h; exact hk
        · exact hm p (List.mem_cons_of_mem _ h)
      · intro p hp
        simp only [mapSet, if_neg hk] at hp
        rcases List.mem_cons.mp hp with h | h
        · subst h; exact hm (k0, v0) (List.mem_cons_self _ _)
        · exact ih hm0 p h

theorem wfMap_insertAll {T : Type} (getKey : T → String) (items : List T) :
    ∀ m, WFMap getKey m → WFMap getKey (insertAll getKey m items) := by
  induction items with
  | nil => intro m hm; exact hm
  | cons x xs ih =>
      intro m hm
      exact ih (mapSet (getKey x) x m) (wfMap_mapSet getKey hm x)

theorem nodup_keys_insertAll {T : Type} (getKey : T → String) (items : List T) :
    ∀ m, (keysOf m).Nodup → (keysOf (insertAll getKey m items)).Nodup := by
  induction items with
  | nil => intro m hm; exact hm
  | cons x xs ih =>
      intro m hm
      exact ih (mapSet (getKey x) x m) (nodup_keys_mapSet hm)

theorem lookupA_mapSet_self {T : Type} (k : String) (v : T) (m : List (String × T)) :
    lookupA k (mapSet k v m) = some v := by
  induction m with
  | nil => simp [mapSet, lookupA]
  | cons q rest ih =>
      obtain ⟨k0, v0⟩ := q
      by_cases hk : k0 = k
      · simp [mapSet, hk, lookupA]
      · simp [mapSet, hk, lookupA, ih]

theorem lookupA_mapSet_ne {T : Type} {k0 k : String} (h : k0 ≠ k) (v : T)
    (m : List (String × T)) : lookupA k0 (mapSet k v m) = lookupA k0 m := by
  have hne : ¬ k = k0 := fun hc => h hc.symm
  induction m with
  | nil => simp [mapSet, lookupA, hne]
  | cons q rest ih =>
      obtain ⟨k1, v1⟩ := q
      by_cases hk : k1 = k
      · subst hk
        simp [mapSet, lookupA, hne]
      · by_cases hk0 : k1 = k0
        · subst hk0
          simp [mapSet, hk, lookupA]
        · simp [mapSet, hk, lookupA, hk0, ih]

theorem lookupA_insertAll {T : Type} (getKey : T → String) (items : List T) :
    ∀ (m : List (String × T)) (k : String),
      lookupA k (insertAll getKey m items) =
        match lastWithKey getKey k items with
        | some v => some v
        | none => lookupA k m := by
  induction items with
  | nil => intro m k; simp [insertAll, lastWithKey]
  | cons x xs ih =>
      intro m k
      simp only [insertAll]
      rw [ih]
      cases hxs : lastWithKey getKey k xs with
      | some v => simp [lastWithKey, hxs]
      | none =>
          simp only [lastWithKey, hxs]
          by_cases hk : getKey x = k
          · subst hk
            simp [lookupA_mapSet_self]
          · simp [hk, lookupA_mapSet_ne (fun hc => hk hc.symm)]

theorem lookupA_insertAll_nil {T : Type} (getKey : T → String) (items : List T)
    (k : String) :
    lookupA k (insertAll getKey [] items) = lastWithKey getKey k items := by
  rw [lookupA_insertAll]
  cases h : lastWithKey getKey k items <;> simp [lookupA]

theorem dedupFirst_filter (p : String → Bool) (l : List String) :
    dedupFirst (l.filter p) = (dedupFirst l).filter p := by
  induction l with
  | nil => rfl
  | cons x l ih =>
      by_cases hp : p x
      · rw [List.filter_cons_of_pos hp]
        simp only [dedupFirst, ih, List.filter_cons_of_pos hp]
        rw [List.filter_comm]
      · rw [List.filter_cons_of_neg hp]
        simp only [dedupFirst, List.filter_cons_of_neg hp, ih]
        rw [List.filter_filter]
        refine (List.filter_congr ?_).symm
        intro a _
        by_cases ha : a = x
        · subst ha
          simp [hp]
        · simp [ha]

theorem nodup_dedupFirst (l : List String) : (dedupFirst l).Nodup := by
  induction l with
  | nil => simp [dedupFirst]
  | cons x l ih =>
      simp only [dedupFirst]
      refine List.nodup_cons.mpr ⟨?_, ih.filter _⟩
      intro hx
      have := List.of_mem_filter hx
      simp at this

theorem mem_dedupFirst {x : String} {l : List String} :
    x ∈ dedupFirst l ↔ x ∈ l := by
  induction l with
  | nil => simp [dedupFirst]
  | cons a l ih =>
      simp only [dedupFirst, List.mem_cons, List.mem_filter]
      constructor
      · rintro (rfl | ⟨hm, _⟩)
        · exact Or.inl rfl
        · exact Or.inr (ih.mp hm)
      · rintro (rfl | hm)
        · exact Or.inl rfl
        · by_cases hx : x = a
          · exact Or.inl hx
          · exact Or.inr ⟨ih.mpr hm, by simp [hx]⟩

theorem keys_insertAll {T : Type} (getKey : T → String) (items : List T) :
    ∀ m, keysOf (insertAll getKey m items) =
      keysOf m ++
        dedupFirst ((items.map getKey).filter (fun k => decide (k ∉ keysOf m))) := by
  induction items with
  | nil => intro m; simp [insertAll, dedupFirst]
  | cons x xs ih =>
      intro m
      simp only [insertAll, List.map_cons]
      by_cases hk : getKey x ∈ keysOf m
      · rw [ih (mapSet (getKey x) x m)]
        rw [keys_mapSet_mem hk]
        rw [List.filter_cons_of_neg (by simp [hk])]
      · rw [ih (mapSet (getKey x) x m)]
        rw [keys_mapSet_notMem hk]
        rw [List.filter_cons_of_pos (by simp [hk])]
        have hpred : (fun k => decide (k ∉ keysOf m ++ [getKey x])) =
            (fun k => decide (k ∉ keysOf m) && (k != getKey x)) := by
          funext k0
          by_cases h1 : k0 ∈ keysOf m <;> by_cases h2 : k0 = getKey x <;>
            simp [h1, h2]
        rw [hpred]
        rw [show (fun k => decide (k ∉ keysOf m) && (k != getKey x)) =
              (fun k => (k != getKey x) && decide (k ∉ keysOf m)) from by
            funext k0; rw [Bool.and_comm]]
        rw [← List.filter_filter]
        rw [dedupFirst_filter]
        simp only [dedupFirst]
        simp [List.append_assoc]

theorem insertAll_append {T : Type} (getKey : T → String) (l1 l2 : List T) :
    ∀ m, insertAll getKey m (l1 ++ l2) =
      insertAll getKey (insertAll getKey m l1) l2 := by
  induction l1 with
  | nil => intro m; rfl
  | cons x xs ih =>
      intro m
      simp only [List.cons_append, insertAll]
      exact ih (mapSet (getKey x) x m)

theorem foldl_insertAll {T : Type} (getKey : T → String) (lists : List (List T)) :
    ∀ m, lists.foldl (fun m list => insertAll getKey m list) m =
      insertAll getKey m lists.flatten := by
  induction lists with
  | nil => intro m; rfl
  | cons l ls ih =>
      intro m
      simp only [List.foldl_cons, List.flatten_cons]
      rw [insertAll_append getKey l ls.flatten m]
      exact ih (insertAll getKey m l)

theorem filterMap_congr_mem {α β : Type} {l : List α} {f g : α → Option β}
    (h : ∀ a ∈ l, f a = g a) : l.filterMap f = l.filterMap g := by
  induction l with
  | nil => rfl
  | cons a l ih =>
      rw [List.filterMap_cons, List.filterMap_cons, h a (by simp),
        ih (fun a ha => h a (by simp [ha]))]

theorem map_snd_keys {T : Type} (getKey : T → String) {m : List (String × T)}
    (hm : WFMap getKey m) : (m.map Prod.snd).map getKey = keysOf m := by
  induction m with
  | nil => rfl
  | cons q rest ih =>
      obtain ⟨k, v⟩ := q
      have hh : getKey v = k := (hm (k, v) (List.mem_cons_self _ _)).symm
      simp only [keysOf, List.map_cons, hh]
      have := ih (fun q hq => hm q (List.mem_cons_of_mem _ hq))
      simp only [keysOf] at this
      rw [this]

theorem filterMap_lookup_values {T : Type} {m : List (String × T)}
    (h : (keysOf m).Nodup) :
    (keysOf m).filterMap (fun k => lookupA k m) = m.map Prod.snd := by
  induction m with
  | nil => rfl
  | cons q rest ih =>
      obtain ⟨k, v⟩ := q
      have h2 : (k :: keysOf rest).Nodup := by
        simpa only [keysOf, List.map_cons] using h
      have hn1 : k ∉ keysOf rest := (List.nodup_cons.mp h2).1
      have hn2 : (keysOf rest).Nodup := (List.nodup_cons.mp h2).2
      simp only [keysOf, List.map_cons, List.filterMap_cons]
      rw [show lookupA k ((k, v) :: rest) = some v from by simp [lookupA]]
      have htail : (keysOf rest).filterMap (fun k0 => lookupA k0 ((k, v) :: rest)) =
          (keysOf rest).filterMap (fun k0 => lookupA k0 rest) := by
        refine filterMap_congr_mem ?_
        intro k0 hk0
        have hne : ¬ k = k0 := fun hc => hn1 (hc ▸ hk0)
        simp [lookupA, hne]
      simp only [keysOf] at htail ih
      rw [htail, ih hn2]

end ListUtils

theorem lexPattern_escapeChars (cs : List Char) :
    lexPattern (RegexUtils.escapeChars cs) = some (cs.map PatTok.lit) := by
  induction cs with
  | nil => rfl
  | cons c cs ih =>
      by_cases h : RegexUtils.regexMeta c
      · simp [RegexUtils.escapeChars, lexPattern, h, ih]
      · have hc : (c == '\\') = false := by
          cases hb : c == '\\'
          · rfl
          · exfalso
            have hcc : c = '\\' := by simpa using hb
            subst hcc
            simp [RegexUtils.regexMeta] at h
        simp only [RegexUtils.escapeChars, h, if_neg, Bool.false_eq_true,
          not_false_eq_true, List.nil_append, List.singleton_append]
        rw [lexPattern_cons_plain c _ hc]
        simp [h, ih]

/-! The claim theorems. -/

/-- C6: the backup-shaped filename predicate `BackupUtils.isBackupFile`,
applied to the basename, accepts `Backup (2) of Foo.ewp` and
`Foo のバックアップ (3).ewp` and rejects `MyBackupFile.ewp`. -/
theorem C6_isBackupFile_examples :
    BackupUtils.isBackupFile "Backup (2) of Foo.ewp" = true ∧
    BackupUtils.isBackupFile "Foo のバックアップ (3).ewp" = true ∧
    BackupUtils.isBackupFile "MyBackupFile.ewp" = false := by
  refine ⟨by decide, by decide, by decide⟩

/-- C4: the promise returned by `doWithBackupCheck` settles with exactly
exactly the result of the task, for every outcome of the detached cleanup (the
post-task directory re-read may fail and any subset of the per-file
deletions may fail); additionally, a failing re-read makes the cleanup
delete nothing, and no cleanup failure reaches the caller. -/
theorem C4_doWithBackupCheck_result {ε τ : Type} (project : String)
    (before : List String) (taskResult : Except ε τ)
    (afterListing : Except ε (List String)) (rmSucceeds : String → Bool)
    (e : ε) :
    (BackupUtils.doWithBackupCheck project before taskResult afterListing
        rmSucceeds).result = taskResult ∧
    (BackupUtils.doWithBackupCheck project before taskResult
        (Except.error e) rmSucceeds).removed = [] :=
  ⟨rfl, rfl⟩

/-- C10: `RegexUtils.escape` neutralizes every regex metacharacter
(every character of the input lexes as a literal token, so the compiled
regex is the literal concatenation `lits s.toList`), and that regex
matches a string exactly where it contains `s` literally; in particular
it matches `s` itself. -/
theorem C10_escape_literal (s : String) :
    lexPattern (RegexUtils.escape s).toList = some (s.toList.map PatTok.lit) ∧
    litChars (s.toList.map PatTok.lit) = some s.toList ∧
    searchTest (lits s.toList) s.toList = true ∧
    (∀ t : List Char, searchTest (lits s.toList) t = true ↔
      ∃ pre post, t = pre ++ s.toList ++ post) := by
  refine ⟨lexPattern_escapeChars s.toList, litChars_map_lit s.toList, ?_, ?_⟩
  · exact searchTest_lits.mpr ⟨[], [], by simp⟩
  · intro t
    exact searchTest_lits

/-- C9: `ListUtils.mergeUnique` returns a list whose keys are pairwise
distinct, whose key set is exactly that of the concatenated inputs,
whose keys appear in order of first occurrence, and which keeps, for
each key, the last element bearing that key across the concatenated
inputs. -/
theorem C9_mergeUnique_spec {T : Type} (getKey : T → String)
    (lists : List (List T)) :
    ((ListUtils.mergeUnique getKey lists).map getKey).Nodup ∧
    (∀ k, k ∈ (ListUtils.mergeUnique getKey lists).map getKey ↔
      k ∈ lists.flatten.map getKey) ∧
    (ListUtils.mergeUnique getKey lists).map getKey =
      ListUtils.dedupFirst (lists.flatten.map getKey) ∧
    ListUtils.mergeUnique getKey lists =
      (ListUtils.dedupFirst (lists.flatten.map getKey)).filterMap
        (fun k => ListUtils.lastWithKey getKey k lists.flatten) := by
  have hfold : ListUtils.mergeUnique getKey lists
      = (ListUtils.insertAll getKey [] lists.flatten).map Prod.snd := by
    unfold ListUtils.mergeUnique
    rw [ListUtils.foldl_insertAll]
  have hwf : ListUtils.WFMap getKey (ListUtils.insertAll getKey [] lists.flatten) :=
    ListUtils.wfMap_insertAll getKey lists.flatten []
      (fun p hp => absurd hp (List.not_mem_nil p))
  have hnodup : (ListUtils.keysOf (ListUtils.insertAll getKey [] lists.flatten)).Nodup :=
    ListUtils.nodup_keys_insertAll getKey lists.flatten [] (by simp [ListUtils.keysOf])
  have hkeys : ListUtils.keysOf (ListUtils.insertAll getKey [] lists.flatten)
      = ListUtils.dedupFirst (lists.flatten.map getKey) := by
    rw [ListUtils.keys_insertAll]
    have hp : (fun k => decide (k ∉ ListUtils.keysOf ([] : List (String × T))))
        = fun _ : String => true := by
      funext k
      simp [ListUtils.keysOf]
    have hnil : ListUtils.keysOf ([] : List (String × T)) = [] := rfl
    rw [hp, hnil, List.filter_true, List.nil_append]
  have hmapkeys : (ListUtils.mergeUnique getKey lists).map getKey
      = ListUtils.keysOf (ListUtils.insertAll getKey [] lists.flatten) := by
    rw [hfold]
    exact ListUtils.map_snd_keys getKey hwf
  refine ⟨?_, ?_, ?_, ?_⟩
  · rw [hmapkeys, hkeys]
    exact ListUtils.nodup_dedupFirst _
  · intro k
    rw [hmapkeys, hkeys, ListUtils.mem_dedupFirst]
  · rw [hmapkeys, hkeys]
  · rw [hfold, ← ListUtils.filterMap_lookup_values hnodup, hkeys]
    refine ListUtils.filterMap_congr_mem ?_
    intro k _
    exact ListUtils.lookupA_insertAll_nil getKey lists.flatten k

/-- C1 counterexample: for project `Foo.ewp`, with before-snapshot
`[Backup of Foo.ewp]` and after-snapshot `[Backup (2) of Foo.ewp]`,
the file `Backup (2) of Foo.ewp` matches the backup patterns, is
present after and absent before, yet is *not* deleted: the cleanup is
skipped entirely because the two snapshots have equal length. -/
theorem C1_counterexample :
    ¬ (∀ f ∈ ["Backup (2) of Foo.ewp"],
        BackupUtils.guardMatches (BackupUtils.projectName "Foo.ewp") f = true →
        f ∉ ["Backup of Foo.ewp"] →
        f ∈ BackupUtils.newBackupFiles "Foo.ewp"
            ["Backup of Foo.ewp"] ["Backup (2) of Foo.ewp"]) := by
  decide

/-- C1 amended: the cleanup deletes exactly the pattern-matching
filenames that are new in the after-snapshot, but only when the number
of matching filenames changed across the task; when the before- and
after-snapshots have equal length (even if their contents differ)
nothing is deleted. Files present before the task are never deleted. -/
theorem C1_amended (project : String) (before after : List String) :
    ((BackupUtils.backupSnapshot project before).length =
        (BackupUtils.backupSnapshot project after).length →
      BackupUtils.newBackupFiles project before after = []) ∧
    ((BackupUtils.backupSnapshot project before).length ≠
        (BackupUtils.backupSnapshot project after).length →
      ∀ f, f ∈ BackupUtils.newBackupFiles project before after ↔
        (f ∈ after ∧
          BackupUtils.guardMatches (BackupUtils.projectName project) f = true ∧
          f ∉ before)) ∧
    (∀ f ∈ before, f ∉ BackupUtils.newBackupFiles project before after) := by
  refine ⟨?_, ?_, ?_⟩
  · intro hlen
    unfold BackupUtils.newBackupFiles
    simp [hlen]
  · intro hlen f
    unfold BackupUtils.newBackupFiles
    rw [if_pos (by simpa using hlen)]
    simp only [BackupUtils.backupSnapshot, List.mem_filter]
    simp
    aesop
  · intro f hf hmem
    unfold BackupUtils.newBackupFiles at hmem
    by_cases hlen : ((BackupUtils.backupSnapshot project before).length !=
        (BackupUtils.backupSnapshot project after).length) = true
    · rw [if_pos hlen] at hmem
      simp [BackupUtils.backupSnapshot] at hmem
      aesop
    · rw [if_neg hlen] at hmem
      cases hmem

/-- C1 amended, witnessed at the counterexample scenario: equal-length
snapshots make the cleanup remove nothing. -/
theorem C1_amended_witness :
    BackupUtils.newBackupFiles "Foo.ewp"
      ["Backup of Foo.ewp"] ["Backup (2) of Foo.ewp"] = [] :=
  (C1_amended "Foo.ewp" ["Backup of Foo.ewp"] ["Backup (2) of Foo.ewp"]).1
    (by decide)

/-- C2 counterexample: the workspace (`.eww`) subscribe handler calls
`set(...)` unconditionally. Re-delivering the unchanged file set
`["a"]` (whose parsed, sorted entity list `["a"]` is structurally equal
to the current list of the model from the first delivery) still produces a
`set(["a"])` call, so reconciling an unchanged file set twice produces
two `set()` calls, not one. -/
theorem C2_counterexample :
    (ewwSubscribeStep (fun f => Except.ok f) (fun _ _ => false) ["a"]).setList
        ≠ none ∧
    (ewwSubscribeStep (fun f => Except.ok f) (fun _ _ => false) ["a"]).setList
        = some ["a"] := by
  refine ⟨by decide, by decide⟩

/-- C2 amended: only the project (`.ewp`) subscribe handler compares the
serialized new list with the serialized current list and skips `set()`
on equality; the workspace (`.eww`) subscribe handler calls `set()` on
every delivery, with the parsed and sorted list. -/
theorem C2_amended {E : Type} (isIgnored : String → Bool)
    (parse : String → Except String E) (lt : E → E → Bool)
    (serialize : List E → String) (files : List String) (current : List E)
    (parseW : String → Except String E) (ltW : E → E → Bool)
    (filesW : List String) :
    (serialize (ewpComputedList isIgnored parse lt files) = serialize current →
      (ewpSubscribeStep isIgnored parse lt serialize files current).setList
        = none) ∧
    (ewwSubscribeStep parseW ltW filesW).setList =
      some (jsSort ltW (parseAll "workspace" parseW filesW).1) := by
  refine ⟨?_, rfl⟩
  intro h
  simp [ewpSubscribeStep, h]

/-- C2 amended, witnessed: a second delivery of the unchanged project
file set is a no-op for the project handler. -/
theorem C2_amended_witness :
    (ewpSubscribeStep (fun _ => false) (fun f => Except.ok f)
        (fun _ _ => false) (fun l => String.join l) ["a"] ["a"]).setList
      = none :=
  (C2_amended (fun _ => false) (fun f => Except.ok f) (fun _ _ => false)
    (fun l => String.join l) ["a"] ["a"] (fun f => Except.ok f)
    (fun _ _ => false) []).1 (by decide)

/-- C3 counterexample: when re-parsing a tracked modified file fails,
the `onFileModified` handler does *not* catch the error: there is no
successful outcome, the `ParseError` escapes the handler (and no
warning is logged by it). -/
theorem C3_counterexample :
    ¬ ∃ o, ewwOnFileModified (fun a b => a == b) (fun _ : Nat => "p")
        (fun _ _ => true) [0] none "p" (Except.error "bad") = Except.ok o := by
  rintro ⟨o, h⟩
  rw [show ewwOnFileModified (fun a b => a == b) (fun _ : Nat => "p")
      (fun _ _ => true) [0] none "p" (Except.error "bad")
      = Except.error "bad" from rfl] at h
  cases h

/-- C3 amended: when a tracked entity matches the modified path and
re-parsing fails, neither handler calls `set()` — the old entity remains
in the list of the model untouched — but the failure is not caught or logged
by the handler: the error propagates out of both `onFileModified`
handlers. -/
theorem C3_amended {E : Type} [DecidableEq E]
    (pathsEqual : String → String → Bool) (pathOf : E → String)
    (structEq : E → E → Bool) (entities : List E) (selected : Option E)
    (modifiedFile : String) (old : E) (msg : String)
    (hfind : entities.find? (fun e => pathsEqual (pathOf e) modifiedFile)
      = some old) :
    ewwOnFileModified pathsEqual pathOf structEq entities selected modifiedFile
        (Except.error msg) = Except.error msg ∧
    ewpOnFileModified pathsEqual pathOf structEq entities modifiedFile
        (Except.error msg) = Except.error msg := by
  constructor
  · unfold ewwOnFileModified
    rw [hfind]
  · unfold ewpOnFileModified
    rw [hfind]

/-- C3 amended, witnessed on a concrete model list. -/
theorem C3_amended_witness :
    ewwOnFileModified (fun a b => a == b) (fun _ : Nat => "q") (fun _ _ => true)
        [5] none "q" (Except.error "oops") = Except.error "oops" :=
  (C3_amended (fun a b => a == b) (fun _ : Nat => "q") (fun _ _ => true)
    [5] none "q" 5 "oops" (by decide)).1

/-- C5: in the project subscribe reconciliation, a file whose parse
fails contributes exactly one warning and no entity, and does not stop
the other files from being parsed: the warnings are one per failing
non-ignored file, and the computed entity list is a permutation of the
successful parses of the non-ignored files. -/
theorem C5_parse_failure_isolation {E : Type} (isIgnored : String → Bool)
    (parse : String → Except String E) (lt : E → E → Bool)
    (serialize : List E → String) (files : List String) (current : List E) :
    ewpWarnings isIgnored parse files =
      (files.filter (fun f => !isIgnored f)).filterMap
        (fun f => warnPart "project" f (parse f)) ∧
    (ewpComputedList isIgnored parse lt files).Perm
      ((files.filter (fun f => !isIgnored f)).filterMap
        (fun f => okPart (parse f))) ∧
    (ewpSubscribeStep isIgnored parse lt serialize files current).warnings =
      ewpWarnings isIgnored parse files := by
  refine ⟨parseAll_snd "project" parse _, ?_, rfl⟩
  unfold ewpComputedList
  rw [← parseAll_fst "project" parse (files.filter (fun f => !isIgnored f))]
  exact jsSort_perm lt _

/-- C8: for both `onFileModified` handlers, an event whose path matches
no tracked entity leaves the model completely unchanged (no `set()`, no
dependent reload for the workspace handler); and when the first tracked
entity with the modified path re-parses to a structurally different
entity, the list passed to `set()` is the old list with the new entity
at the position of the old one and every other element untouched. -/
theorem C8_onFileModified_frame {E : Type} [DecidableEq E]
    (pathsEqual : String → String → Bool) (pathOf : E → String)
    (structEq : E → E → Bool) (selected : Option E) (modifiedFile : String) :
    (∀ (entities : List E) (reparse : Except String E),
      (∀ e ∈ entities, pathsEqual (pathOf e) modifiedFile = false) →
      ewwOnFileModified pathsEqual pathOf structEq entities selected
          modifiedFile reparse = Except.ok ⟨none, false⟩ ∧
      ewpOnFileModified pathsEqual pathOf structEq entities
          modifiedFile reparse = Except.ok ⟨none, false⟩) ∧
    (∀ (pre post : List E) (old newE : E),
      pathsEqual (pathOf old) modifiedFile = true →
      (∀ e ∈ pre, pathsEqual (pathOf e) modifiedFile = false) →
      old ∉ post →
      structEq old newE = false →
      ewwOnFileModified pathsEqual pathOf structEq (pre ++ old :: post)
          selected modifiedFile (Except.ok newE)
        = Except.ok ⟨some (pre ++ newE :: post), false⟩ ∧
      ewpOnFileModified pathsEqual pathOf structEq (pre ++ old :: post)
          modifiedFile (Except.ok newE)
        = Except.ok ⟨some (pre ++ newE :: post), true⟩) := by
  constructor
  · intro entities reparse hnone
    have hfind : entities.find? (fun e => pathsEqual (pathOf e) modifiedFile)
        = none :=
      List.find?_eq_none.mpr (fun x hx => by simp [hnone x hx])
    constructor
    · unfold ewwOnFileModified
      rw [hfind]
    · unfold ewpOnFileModified
      rw [hfind]
  · intro pre post old newE hold hpre hpost hneq
    have hnotpre : old ∉ pre := by
      intro hc
      have := hpre old hc
      rw [hold] at this
      cases this
    have hfind : (pre ++ old :: post).find?
        (fun e => pathsEqual (pathOf e) modifiedFile) = some old :=
      find?_pre_cons _ pre post old hpre hold
    have hmap := map_replace_middle old newE pre post hnotpre hpost
    constructor
    · unfold ewwOnFileModified
      rw [hfind]
      simp [hneq, hmap]
    · unfold ewpOnFileModified
      rw [hfind]
      simp [hneq, hmap]

/-- C8, witnessed: replacing the middle entity of a three-element model
list. -/
theorem C8_witness :
    ewwOnFileModified (fun a b => a == b)
        (fun n : Nat => if n ≤ 10 then "a" else "b") (fun _ _ => false)
        [1, 20, 3] none "b" (Except.ok 99)
      = Except.ok ⟨some [1, 99, 3], false⟩ := by
  have h := (C8_onFileModified_frame (fun a b => a == b)
      (fun n : Nat => if n ≤ 10 then "a" else "b") (fun _ _ => false)
      none "b").2 [1] [3] 20 99 (by decide) (by decide) (by decide) (by decide)
  exact h.1

end IarBuild
